import Mathlib

/-!
Verification of the collector-tree protocol of bamstatsAlive
(`src/AbstractStatCollector.h`).

Only the header (declarations and doc comments) is present in the
repository sources; the method bodies live in a translation unit that is
not part of `src/`.  Every operational definition below is therefore
modelled from the specification text, as indicated in its doc comment.

The model has three layers:
 * the child sequence `_children` (a `std::vector` of node pointers) is
   modelled as a `List Nat`, a pointer being an opaque identity `Nat`;
 * the collector tree is modelled as a rose tree whose nodes carry their
   per-node statistic state and the two pluggable primitives
   (`processAlignmentImpl`, `appendJsonImpl`) as functions;
 * a variant of the tree whose update primitive may fail (`Except`)
   models exception propagation, and a heap-of-builders variant models
   the object identity of the jansson builder.
-/

namespace BamstatsAlive

/-- Modelled from the spec: `addChild` "appends the reference to the end of
the ordered child sequence" (`_children.push_back(child)`); the child
sequence is the vector of pointers `_children`, a pointer being a `Nat`. -/
def addChildL (cs : List Nat) (c : Nat) : List Nat := cs ++ [c]

/-- Modelled from the spec: `removeChild` "removes the first matching
reference from the sequence (order-preserving removal of the rest);
removing a reference that is not present is a no-op". -/
def removeChildL (c : Nat) : List Nat → List Nat
  | [] => []
  | x :: xs => if x = c then xs else x :: removeChildL c xs

/-- An operation on the child sequence: one `addChild` or one
`removeChild` call, identified by the reference it touches. -/
inductive ChildOp : Type where
  | add (c : Nat)
  | remove (c : Nat)
deriving DecidableEq

/-- The reference an operation touches. -/
def ChildOp.ref : ChildOp → Nat
  | .add c => c
  | .remove c => c

/-- Apply one child-sequence operation. -/
def applyOp (cs : List Nat) : ChildOp → List Nat
  | .add c => addChildL cs c
  | .remove c => removeChildL c cs

/-- Apply a sequence of child-sequence operations, oldest first. -/
def applyOps (ops : List ChildOp) (cs : List Nat) : List Nat :=
  ops.foldl applyOp cs

/-- Modelled from the spec: a collector node.  `ident` is the node's
pointer identity, `st` the pluggable per-node statistic state, `upd` the
pluggable `processAlignmentImpl` ("update internal state from one
record"), `emit` the pluggable `appendJsonImpl` ("write internal state
into the shared report builder"), and `children` the ordered child
sequence, in insertion order.  `α` is the opaque alignment-record type,
`ρ` the opaque reference/contig-table type, `β` the report-builder
type. -/
inductive StatCollector (σ α ρ β : Type) : Type where
  | mk (ident : Nat) (st : σ) (upd : σ → α → ρ → σ) (emit : σ → β → β)
       (children : List (StatCollector σ α ρ β))

variable {σ α ρ β : Type}

/-- Modelled from the spec: `processAlignment` "first invokes this node's
own statistic-update logic with the record and its reference/contig
table, then invokes the same ingestion entry point on every child, in
child order, passing the identical record and reference table
unchanged". -/
def processAlignment (al : α) (ref : ρ) :
    StatCollector σ α ρ β → StatCollector σ α ρ β
  | .mk i st upd emit cs =>
      .mk i (upd st al ref) upd emit
        (cs.attach.map fun c => processAlignment al ref c.1)
decreasing_by
  simp only [StatCollector.mk.sizeOf_spec]
  have := List.sizeOf_lt_of_mem c.2
  omega

/-- Modelled from the spec: the sequence of `processAlignmentImpl`
invocations a `processAlignment` call performs — for each invocation the
identity of the node whose logic runs and the record/reference arguments
it receives, in invocation order (own logic first, then the children in
child order). -/
def processVisits (al : α) (ref : ρ) :
    StatCollector σ α ρ β → List (Nat × α × ρ)
  | .mk i _ _ _ cs =>
      (i, al, ref) :: (cs.attach.map fun c => processVisits al ref c.1).flatten
decreasing_by
  simp only [StatCollector.mk.sizeOf_spec]
  have := List.sizeOf_lt_of_mem c.2
  omega

/-- The depth-first pre-order of node identities, determined solely by
the tree structure (child insertion order). -/
def preorderIds : StatCollector σ α ρ β → List Nat
  | .mk i _ _ _ cs =>
      i :: (cs.attach.map fun c => preorderIds c.1).flatten
decreasing_by
  simp only [StatCollector.mk.sizeOf_spec]
  have := List.sizeOf_lt_of_mem c.2
  omega

/-- How many nodes of the tree carry the identity `n`. -/
def countNodes (n : Nat) : StatCollector σ α ρ β → Nat
  | .mk i _ _ _ cs =>
      (if i = n then 1 else 0) + (cs.attach.map fun c => countNodes n c.1).sum
decreasing_by
  simp only [StatCollector.mk.sizeOf_spec]
  have := List.sizeOf_lt_of_mem c.2
  omega

/-- The number of nodes of the tree. -/
def sizeT : StatCollector σ α ρ β → Nat
  | .mk _ _ _ _ cs => 1 + (cs.attach.map fun c => sizeT c.1).sum
decreasing_by
  simp only [StatCollector.mk.sizeOf_spec]
  have := List.sizeOf_lt_of_mem c.2
  omega

/-- The pre-order list of per-node statistic states. -/
def preorderSts : StatCollector σ α ρ β → List σ
  | .mk _ st _ _ cs =>
      st :: (cs.attach.map fun c => preorderSts c.1).flatten
decreasing_by
  simp only [StatCollector.mk.sizeOf_spec]
  have := List.sizeOf_lt_of_mem c.2
  omega

/-- The pre-order list of states each node would hold after its own
update logic ran exactly once on the record `al` and table `ref`. -/
def preorderUpdated (al : α) (ref : ρ) : StatCollector σ α ρ β → List σ
  | .mk _ st upd _ cs =>
      upd st al ref :: (cs.attach.map fun c => preorderUpdated al ref c.1).flatten
decreasing_by
  simp only [StatCollector.mk.sizeOf_spec]
  have := List.sizeOf_lt_of_mem c.2
  omega

/-- Modelled from the spec: `appendJson` — "this node's own pluggable
report-emission logic writes its fields into the builder, then every
child's report-assembly entry point is invoked, in child order, writing
into the same builder"; "if omitted, a fresh empty one is created
internally" (`json_object()`, modelled by `emptyB`). -/
def appendJson (emptyB : β) : StatCollector σ α ρ β → Option β → β
  | .mk _ st _ emit cs, b =>
      cs.attach.foldl (fun acc c => appendJson emptyB c.1 (some acc))
        (emit st (b.getD emptyB))
decreasing_by
  simp only [StatCollector.mk.sizeOf_spec]
  have := List.sizeOf_lt_of_mem c.2
  omega

/-- The pre-order list of the pluggable emission functions of all nodes
of the tree (each applied to the state the node holds). -/
def preorderEmits : StatCollector σ α ρ β → List (β → β)
  | .mk _ st _ emit cs =>
      emit st :: (cs.attach.map fun c => preorderEmits c.1).flatten
decreasing_by
  simp only [StatCollector.mk.sizeOf_spec]
  have := List.sizeOf_lt_of_mem c.2
  omega

/-- Two `appendJson` calls on the same root with no builder argument and
no ingestion in between. -/
def buildReportTwice (emptyB : β) (t : StatCollector σ α ρ β) : β × β :=
  (appendJson emptyB t none, appendJson emptyB t none)

/-- A leaf collector whose emission logic writes the field `count` (keyed
by its node identity) equal to the number of records it has seen. -/
def leafAt (i n : Nat) : StatCollector Nat Nat Nat (List (Nat × Nat)) :=
  .mk i n (fun k _ _ => k + 1) (fun k b => b ++ [(i, k)]) []

/-- A count-collector root (identity 0, `n` records seen so far) with
three leaf children of the same kind (identities 1, 2, 3). -/
def countTree (n : Nat) : StatCollector Nat Nat Nat (List (Nat × Nat)) :=
  .mk 0 n (fun k _ _ => k + 1) (fun k b => b ++ [(0, k)])
    [leafAt 1 n, leafAt 2 n, leafAt 3 n]

/-- The count-collector tree before any ingestion. -/
def countRoot : StatCollector Nat Nat Nat (List (Nat × Nat)) := countTree 0

/-- Ingest a stream of records (each with its reference table) through
the root's `processAlignment`, one call per record. -/
def ingestAll (recs : List (α × ρ)) (t : StatCollector σ α ρ β) :
    StatCollector σ α ρ β :=
  recs.foldl (fun u r => processAlignment r.1 r.2 u) t

/-- Modelled from the spec: a collector node whose pluggable statistic
implementation may raise a failure; `updE` returns either the updated
state or the failure value `ε` it raises. -/
inductive StatCollectorE (σ α ρ ε : Type) : Type where
  | mk (ident : Nat) (st : σ) (updE : σ → α → ρ → Except ε σ)
       (children : List (StatCollectorE σ α ρ ε))

variable {ε : Type}

mutual
/-- Modelled from the spec: the fallible traversal — own update logic
first; a failure raised there, or inside any child's subtree, propagates
unmodified and aborts the remainder of the traversal. -/
def processAlignmentE (al : α) (ref : ρ) :
    StatCollectorE σ α ρ ε → Except ε (StatCollectorE σ α ρ ε)
  | .mk i st updE cs =>
      match updE st al ref with
      | .error e => .error e
      | .ok st2 =>
          match processChildrenE al ref cs with
          | .error e => .error e
          | .ok cs2 => .ok (.mk i st2 updE cs2)

/-- The children, visited in child order; the first failure aborts the
loop, so later siblings are not visited. -/
def processChildrenE (al : α) (ref : ρ) :
    List (StatCollectorE σ α ρ ε) →
      Except ε (List (StatCollectorE σ α ρ ε))
  | [] => .ok []
  | c :: cs =>
      match processAlignmentE al ref c with
      | .error e => .error e
      | .ok c2 =>
          match processChildrenE al ref cs with
          | .error e => .error e
          | .ok cs2 => .ok (c2 :: cs2)
end

mutual
/-- The identities whose update logic actually runs during a fallible
traversal, in invocation order, with the failure (if any) that ended the
traversal. -/
def visitsE (al : α) (ref : ρ) :
    StatCollectorE σ α ρ ε → List Nat × Option ε
  | .mk i st updE cs =>
      match updE st al ref with
      | .error e => ([i], some e)
      | .ok _ =>
          let r := visitsEList al ref cs
          (i :: r.1, r.2)

/-- The identities visited across a child list, stopping at the first
failure. -/
def visitsEList (al : α) (ref : ρ) :
    List (StatCollectorE σ α ρ ε) → List Nat × Option ε
  | [] => ([], none)
  | c :: cs =>
      match visitsE al ref c with
      | (ids, some e) => (ids, some e)
      | (ids, none) =>
          let r := visitsEList al ref cs
          (ids ++ r.1, r.2)
end

mutual
/-- The depth-first pre-order of node identities of a fallible tree. -/
def preorderIdsE : StatCollectorE σ α ρ ε → List Nat
  | .mk i _ _ cs => i :: preorderIdsEList cs

/-- The concatenated pre-orders of a child list. -/
def preorderIdsEList : List (StatCollectorE σ α ρ ε) → List Nat
  | [] => []
  | c :: cs => preorderIdsE c ++ preorderIdsEList cs
end

/-- A concrete tree whose second node raises the failure `7`: root `0`
succeeds, first child `1` fails, second child `2` is never reached. -/
def failTree : StatCollectorE Nat Nat Nat Nat :=
  .mk 0 0 (fun s _ _ => .ok s)
    [.mk 1 0 (fun _ _ _ => .error 7) [], .mk 2 0 (fun s _ _ => .ok s) []]

/-- A heap of report builders, modelling jansson object identity:
`next` is the next fresh address, `store` the builder value living at
each address. -/
structure BuilderHeap (β : Type) : Type where
  next : Nat
  store : Nat → β

/-- In-place mutation of the builder at address `bid`. -/
def heapApply (bid : Nat) (f : β → β) (h : BuilderHeap β) : BuilderHeap β :=
  ⟨h.next, fun j => if j = bid then f (h.store j) else h.store j⟩

/-- Allocation of a fresh empty builder (`json_object()`): returns its
address and the grown heap. -/
def heapAlloc (emptyB : β) (h : BuilderHeap β) : Nat × BuilderHeap β :=
  (h.next, ⟨h.next + 1, fun j => if j = h.next then emptyB else h.store j⟩)

/-- Modelled from the spec: `appendJson` at the builder-identity level.
With a builder argument, this node's emission and every child call write
in place into that same builder; with no argument, a fresh empty builder
is allocated first.  The returned address is the builder written to. -/
def appendJsonH (emptyB : β) :
    StatCollector σ α ρ β → Option Nat → BuilderHeap β →
      Nat × BuilderHeap β
  | .mk _ st _ emit cs, arg, h =>
      let p : Nat × BuilderHeap β := match arg with
        | some bid => (bid, h)
        | none => heapAlloc emptyB h
      (p.1, cs.attach.foldl
        (fun hh c => (appendJsonH emptyB c.1 (some p.1) hh).2)
        (heapApply p.1 (emit st) p.2))
decreasing_by
  simp only [StatCollector.mk.sizeOf_spec]
  have := List.sizeOf_lt_of_mem c.2
  omega

theorem removeChildL_of_not_mem {c : Nat} : ∀ {cs : List Nat}, c ∉ cs →
    removeChildL c cs = cs
  | [], _ => rfl
  | x :: xs, h => by
      have hx : x ≠ c := fun hxc => h (hxc ▸ List.mem_cons_self x xs)
      have hxs : c ∉ xs := fun hm => h (List.mem_cons_of_mem x hm)
      simp [removeChildL, hx, removeChildL_of_not_mem hxs]

theorem removeChildL_append_of_not_mem {c : Nat} :
    ∀ {l1 : List Nat} (l2 : List Nat), c ∉ l1 →
      removeChildL c (l1 ++ l2) = l1 ++ removeChildL c l2
  | [], l2, _ => rfl
  | x :: xs, l2, h => by
      have hx : x ≠ c := fun hxc => h (hxc ▸ List.mem_cons_self x xs)
      have hxs : c ∉ xs := fun hm => h (List.mem_cons_of_mem x hm)
      simp [removeChildL, hx, removeChildL_append_of_not_mem l2 hxs]

theorem removeChildL_append_of_mem {c : Nat} :
    ∀ {l1 : List Nat} (l2 : List Nat), c ∈ l1 →
      removeChildL c (l1 ++ l2) = removeChildL c l1 ++ l2
  | x :: xs, l2, h => by
      by_cases hx : x = c
      · simp [removeChildL, hx]
      · have hxs : c ∈ xs := by
          rcases List.mem_cons.mp h with h1 | h1
          · exact absurd h1.symm hx
          · exact h1
        simp [removeChildL, hx, removeChildL_append_of_mem l2 hxs]

theorem removeChildL_middle {c : Nat} (l1 l2 : List Nat) (h : c ∉ l1) :
    removeChildL c (l1 ++ c :: l2) = l1 ++ l2 := by
  rw [removeChildL_append_of_not_mem (c :: l2) h]
  simp [removeChildL]

theorem mem_of_mem_removeChildL {c d : Nat} :
    ∀ {cs : List Nat}, d ∈ removeChildL c cs → d ∈ cs
  | [], h => h
  | x :: xs, h => by
      by_cases hx : x = c
      · simp only [removeChildL, if_pos hx] at h
        exact List.mem_cons_of_mem x h
      · simp only [removeChildL, if_neg hx] at h
        rcases List.mem_cons.mp h with h1 | h1
        · exact h1 ▸ List.mem_cons_self x xs
        · exact List.mem_cons_of_mem x (mem_of_mem_removeChildL h1)

/-- Key cancellation lemma: applying unrelated operations to a sequence
holding one occurrence of `c` commutes with erasing that occurrence. -/
theorem removeChildL_applyOps_middle {c : Nat} :
    ∀ (ops : List ChildOp) (l1 l2 : List Nat), c ∉ l1 → c ∉ l2 →
      (∀ op ∈ ops, op.ref ≠ c) →
      removeChildL c (applyOps ops (l1 ++ c :: l2)) = applyOps ops (l1 ++ l2)
  | [], l1, l2, h1, _, _ => removeChildL_middle l1 l2 h1
  | op :: ops, l1, l2, h1, h2, hops => by
      have hop : op.ref ≠ c := hops op (List.mem_cons_self op ops)
      have hops' : ∀ o ∈ ops, ChildOp.ref o ≠ c :=
        fun o ho => hops o (List.mem_cons_of_mem op ho)
      cases op with
      | add d =>
          have hd : d ≠ c := hop
          have step1 : applyOp (l1 ++ c :: l2) (ChildOp.add d)
              = l1 ++ c :: (l2 ++ [d]) := by
            simp [applyOp, addChildL]
          have step2 : applyOp (l1 ++ l2) (ChildOp.add d)
              = l1 ++ (l2 ++ [d]) := by
            simp [applyOp, addChildL]
          have h2' : c ∉ l2 ++ [d] := by
            intro hm
            rcases List.mem_append.mp hm with hm | hm
            · exact h2 hm
            · exact hd (List.mem_singleton.mp hm).symm
          calc removeChildL c (applyOps (ChildOp.add d :: ops) (l1 ++ c :: l2))
              = removeChildL c (applyOps ops (l1 ++ c :: (l2 ++ [d]))) := by
                simp [applyOps, List.foldl_cons, step1]
            _ = applyOps ops (l1 ++ (l2 ++ [d])) :=
                removeChildL_applyOps_middle ops l1 (l2 ++ [d]) h1 h2' hops'
            _ = applyOps (ChildOp.add d :: ops) (l1 ++ l2) := by
                simp [applyOps, List.foldl_cons, step2]
      | remove d =>
          have hd : d ≠ c := hop
          by_cases hdl1 : d ∈ l1
          · have step1 : applyOp (l1 ++ c :: l2) (ChildOp.remove d)
                = removeChildL d l1 ++ c :: l2 :=
              removeChildL_append_of_mem (c :: l2) hdl1
            have step2 : applyOp (l1 ++ l2) (ChildOp.remove d)
                = removeChildL d l1 ++ l2 :=
              removeChildL_append_of_mem l2 hdl1
            have h1' : c ∉ removeChildL d l1 :=
              fun hm => h1 (mem_of_mem_removeChildL hm)
            calc removeChildL c (applyOps (ChildOp.remove d :: ops) (l1 ++ c :: l2))
                = removeChildL c (applyOps ops (removeChildL d l1 ++ c :: l2)) := by
                  simp [applyOps, List.foldl_cons, step1]
              _ = applyOps ops (removeChildL d l1 ++ l2) :=
                  removeChildL_applyOps_middle ops (removeChildL d l1) l2 h1' h2 hops'
              _ = applyOps (ChildOp.remove d :: ops) (l1 ++ l2) := by
                  simp [applyOps, List.foldl_cons, step2]
          · have step1 : applyOp (l1 ++ c :: l2) (ChildOp.remove d)
                = l1 ++ c :: removeChildL d l2 := by
              show removeChildL d (l1 ++ c :: l2) = l1 ++ c :: removeChildL d l2
              rw [removeChildL_append_of_not_mem (c :: l2) hdl1]
              simp only [removeChildL, if_neg (show ¬ c = d from fun h => hd h.symm)]
            have step2 : applyOp (l1 ++ l2) (ChildOp.remove d)
                = l1 ++ removeChildL d l2 :=
              removeChildL_append_of_not_mem l2 hdl1
            have h2' : c ∉ removeChildL d l2 :=
              fun hm => h2 (mem_of_mem_removeChildL hm)
            calc removeChildL c (applyOps (ChildOp.remove d :: ops) (l1 ++ c :: l2))
                = removeChildL c (applyOps ops (l1 ++ c :: removeChildL d l2)) := by
                  simp [applyOps, List.foldl_cons, step1]
              _ = applyOps ops (l1 ++ removeChildL d l2) :=
                  removeChildL_applyOps_middle ops l1 (removeChildL d l2) h1 h2' hops'
              _ = applyOps (ChildOp.remove d :: ops) (l1 ++ l2) := by
                  simp [applyOps, List.foldl_cons, step2]

theorem removeChildL_decomp {c : Nat} :
    ∀ {cs : List Nat}, c ∈ cs →
      ∃ l1 l2, cs = l1 ++ c :: l2 ∧ c ∉ l1 ∧ removeChildL c cs = l1 ++ l2
  | x :: xs, h => by
      by_cases hx : x = c
      · exact ⟨[], xs, by simp [hx], by simp, by simp [removeChildL, hx]⟩
      · have hxs : c ∈ xs := by
          rcases List.mem_cons.mp h with h1 | h1
          · exact absurd h1.symm hx
          · exact h1
        obtain ⟨l1, l2, hcs, hnl1, hrm⟩ := removeChildL_decomp hxs
        refine ⟨x :: l1, l2, by simp [hcs], ?_, by simp [removeChildL, hx, hrm]⟩
        intro hm
        rcases List.mem_cons.mp hm with h1 | h1
        · exact hx h1.symm
        · exact hnl1 h1

theorem removeChildL_sublist (c : Nat) :
    ∀ cs : List Nat, List.Sublist (removeChildL c cs) cs
  | [] => List.Sublist.refl []
  | x :: xs => by
      by_cases hx : x = c
      · simp only [removeChildL, if_pos hx]
        exact List.sublist_cons_self x xs
      · simp only [removeChildL, if_neg hx]
        exact List.Sublist.cons₂ x (removeChildL_sublist c xs)

theorem removeChildL_filter_ne (c : Nat) :
    ∀ cs : List Nat,
      (removeChildL c cs).filter (fun x => x ≠ c) = cs.filter (fun x => x ≠ c)
  | [] => rfl
  | x :: xs => by
      by_cases hx : x = c
      · subst hx
        simp [removeChildL]
      · simp only [removeChildL, if_neg hx]
        simp [List.filter_cons, hx]
        simpa using removeChildL_filter_ne c xs

theorem removeChildL_count_ne {c d : Nat} (hd : d ≠ c) :
    ∀ cs : List Nat, (removeChildL c cs).count d = cs.count d
  | [] => rfl
  | x :: xs => by
      by_cases hx : x = c
      · subst hx
        simp [removeChildL, List.count_cons, fun h : d = x => hd h]
      · simp [removeChildL, hx, List.count_cons, removeChildL_count_ne hd xs]

/-- C3: `removeChild(c)` removes exactly the first reference equal to `c`
from the child sequence, preserving the relative order of the remaining
children; when `c` is absent it is a no-op (same count and order, no
failure — the model is total). -/
theorem removeChild_first_match_or_noop (cs : List Nat) (c : Nat) :
    (c ∉ cs → removeChildL c cs = cs) ∧
    (c ∈ cs →
      ∃ l1 l2, cs = l1 ++ c :: l2 ∧ c ∉ l1 ∧ removeChildL c cs = l1 ++ l2) :=
  ⟨removeChildL_of_not_mem, removeChildL_decomp⟩

theorem removeChild_first_match_or_noop_witness :
    removeChildL 3 [1, 2] = [1, 2] ∧
    ∃ l1 l2, [1, 2, 1] = l1 ++ 1 :: l2 ∧ 1 ∉ l1 ∧
      removeChildL 1 [1, 2, 1] = l1 ++ l2 :=
  ⟨(removeChild_first_match_or_noop [1, 2] 3).1 (by decide),
   (removeChild_first_match_or_noop [1, 2, 1] 1).2 (by decide)⟩

/-- C4 counterexample: with an unrelated `addChild 2` between
`addChild 1` and `removeChild 1`, the final child sequence is `[2]`,
not the prior sequence `[]` — the literal claim fails. -/
theorem addChild_removeChild_no_literal_restore :
    ¬ (applyOps [ChildOp.add 1, ChildOp.add 2, ChildOp.remove 1] [] =
        ([] : List Nat)) := by
  decide

/-- C4 (amended): provided `c` is not already a child and the intervening
operations do not touch `c`, `addChild c` followed later by
`removeChild c` yields exactly the child sequence that the intervening
unrelated operations alone would have produced: the add/remove pair is a
net no-op. -/
theorem addChild_removeChild_cancel (cs : List Nat) (c : Nat)
    (ops : List ChildOp) (hc : c ∉ cs) (hops : ∀ op ∈ ops, op.ref ≠ c) :
    removeChildL c (applyOps ops (addChildL cs c)) = applyOps ops cs := by
  have h := removeChildL_applyOps_middle ops cs [] hc (by simp) hops
  simpa [addChildL] using h

theorem addChild_removeChild_cancel_witness :
    removeChildL 1 (applyOps [ChildOp.add 2] (addChildL [5] 1)) =
      applyOps [ChildOp.add 2] [5] :=
  addChild_removeChild_cancel [5] 1 [ChildOp.add 2] (by decide) (by decide)

/-- C6: `addChild(c)` appends `c` at the end (the prior sequence is an
unchanged initial segment and `c` is the sole new final element), and both
operations only affect the presence of the touched reference: an untouched
reference `d` keeps its multiplicity, removal yields a subsequence of the
original (relative order of the remainder preserved), and the
non-`c` elements are exactly preserved, in order. -/
theorem child_order_stability (cs : List Nat) (c d : Nat) (hd : d ≠ c) :
    (addChildL cs c).take cs.length = cs ∧
    (addChildL cs c).drop cs.length = [c] ∧
    (addChildL cs c).count d = cs.count d ∧
    List.Sublist (removeChildL c cs) cs ∧
    (removeChildL c cs).filter (fun x => x ≠ c) = cs.filter (fun x => x ≠ c) ∧
    (removeChildL c cs).count d = cs.count d := by
  refine ⟨?_, ?_, ?_, removeChildL_sublist c cs, removeChildL_filter_ne c cs,
    removeChildL_count_ne hd cs⟩
  · simp [addChildL]
  · simp [addChildL]
  · simp [addChildL, hd]

theorem child_order_stability_witness :
    (addChildL [1, 2, 1] 1).take ([1, 2, 1] : List Nat).length = [1, 2, 1] ∧
    (addChildL [1, 2, 1] 1).drop ([1, 2, 1] : List Nat).length = [1] ∧
    (addChildL [1, 2, 1] 1).count 2 = ([1, 2, 1] : List Nat).count 2 ∧
    List.Sublist (removeChildL 1 [1, 2, 1]) [1, 2, 1] ∧
    (removeChildL 1 [1, 2, 1]).filter (fun x => x ≠ 1) =
      ([1, 2, 1] : List Nat).filter (fun x => x ≠ 1) ∧
    (removeChildL 1 [1, 2, 1]).count 2 = ([1, 2, 1] : List Nat).count 2 :=
  child_order_stability [1, 2, 1] 1 2 (by decide)

/-- Induction principle for collector trees: to prove a property of all
trees it suffices to prove it for a node assuming it for every child. -/
theorem rec_aux {motive : StatCollector σ α ρ β → Prop}
    (h : ∀ i st upd emit cs, (∀ c ∈ cs, motive c) →
      motive (.mk i st upd emit cs)) :
    ∀ t, motive t
  | .mk i st upd emit cs =>
      h i st upd emit cs (fun c hc => rec_aux h c)
decreasing_by
  simp only [StatCollector.mk.sizeOf_spec]
  have := List.sizeOf_lt_of_mem hc
  omega

theorem processAlignment_mk (al : α) (ref : ρ) (i : Nat) (st : σ)
    (upd : σ → α → ρ → σ) (emit : σ → β → β)
    (cs : List (StatCollector σ α ρ β)) :
    processAlignment al ref (.mk i st upd emit cs) =
      .mk i (upd st al ref) upd emit (cs.map (processAlignment al ref)) := by
  simp only [processAlignment]
  rw [List.attach_map_val cs (processAlignment al ref)]

theorem processVisits_mk (al : α) (ref : ρ) (i : Nat) (st : σ)
    (upd : σ → α → ρ → σ) (emit : σ → β → β)
    (cs : List (StatCollector σ α ρ β)) :
    processVisits al ref (.mk i st upd emit cs) =
      (i, al, ref) :: (cs.map (processVisits al ref)).flatten := by
  simp only [processVisits]
  rw [List.attach_map_val cs (processVisits al ref)]

theorem preorderIds_mk (i : Nat) (st : σ) (upd : σ → α → ρ → σ)
    (emit : σ → β → β) (cs : List (StatCollector σ α ρ β)) :
    preorderIds (.mk i st upd emit cs) = i :: (cs.map preorderIds).flatten := by
  simp only [preorderIds]
  rw [List.attach_map_val cs preorderIds]

theorem countNodes_mk (n i : Nat) (st : σ) (upd : σ → α → ρ → σ)
    (emit : σ → β → β) (cs : List (StatCollector σ α ρ β)) :
    countNodes n (.mk i st upd emit cs) =
      (if i = n then 1 else 0) + (cs.map (countNodes n)).sum := by
  simp only [countNodes]
  rw [List.attach_map_val cs (countNodes n)]

theorem sizeT_mk (i : Nat) (st : σ) (upd : σ → α → ρ → σ)
    (emit : σ → β → β) (cs : List (StatCollector σ α ρ β)) :
    sizeT (.mk i st upd emit cs) = 1 + (cs.map sizeT).sum := by
  simp only [sizeT]
  rw [List.attach_map_val cs sizeT]

theorem preorderSts_mk (i : Nat) (st : σ) (upd : σ → α → ρ → σ)
    (emit : σ → β → β) (cs : List (StatCollector σ α ρ β)) :
    preorderSts (.mk i st upd emit cs) = st :: (cs.map preorderSts).flatten := by
  simp only [preorderSts]
  rw [List.attach_map_val cs preorderSts]

theorem preorderUpdated_mk (al : α) (ref : ρ) (i : Nat) (st : σ)
    (upd : σ → α → ρ → σ) (emit : σ → β → β)
    (cs : List (StatCollector σ α ρ β)) :
    preorderUpdated al ref (.mk i st upd emit cs) =
      upd st al ref :: (cs.map (preorderUpdated al ref)).flatten := by
  simp only [preorderUpdated]
  rw [List.attach_map_val cs (preorderUpdated al ref)]

theorem appendJson_mk (emptyB : β) (i : Nat) (st : σ)
    (upd : σ → α → ρ → σ) (emit : σ → β → β)
    (cs : List (StatCollector σ α ρ β)) (b : Option β) :
    appendJson emptyB (.mk i st upd emit cs) b =
      cs.foldl (fun acc c => appendJson emptyB c (some acc))
        (emit st (b.getD emptyB)) := by
  simp only [appendJson]
  rw [List.foldl_attach cs (fun acc c => appendJson emptyB c (some acc))]

theorem preorderEmits_mk (i : Nat) (st : σ) (upd : σ → α → ρ → σ)
    (emit : σ → β → β) (cs : List (StatCollector σ α ρ β)) :
    preorderEmits (.mk i st upd emit cs) =
      emit st :: (cs.map preorderEmits).flatten := by
  simp only [preorderEmits]
  rw [List.attach_map_val cs preorderEmits]

theorem processVisits_map_fst (al : α) (ref : ρ) (t : StatCollector σ α ρ β) :
    (processVisits al ref t).map Prod.fst = preorderIds t := by
  induction t using rec_aux with
  | h i st upd emit cs ih =>
      rw [processVisits_mk, preorderIds_mk, List.map_cons, List.map_flatten,
        List.map_map]
      congr 1
      congr 1
      exact List.map_congr_left fun c hc => ih c hc

theorem count_preorderIds (n : Nat) (t : StatCollector σ α ρ β) :
    (preorderIds t).count n = countNodes n t := by
  induction t using rec_aux with
  | h i st upd emit cs ih =>
      rw [preorderIds_mk, countNodes_mk, List.count_cons, List.count_flatten,
        List.map_map]
      rw [show List.map (List.count n ∘ preorderIds) cs
            = List.map (countNodes n) cs from
          List.map_congr_left fun c hc => ih c hc]
      simp only [beq_iff_eq]
      exact Nat.add_comm _ _

theorem preorderSts_processAlignment (al : α) (ref : ρ)
    (t : StatCollector σ α ρ β) :
    preorderSts (processAlignment al ref t) = preorderUpdated al ref t := by
  induction t using rec_aux with
  | h i st upd emit cs ih =>
      rw [processAlignment_mk, preorderSts_mk, preorderUpdated_mk, List.map_map]
      congr 1
      congr 1
      exact List.map_congr_left fun c hc => ih c hc

/-- C1: `processAlignment` visits every node exactly once, in a fixed
depth-first pre-order: the identities of the `processAlignmentImpl`
invocations it performs are exactly the structural pre-order of the tree
(own logic first, then the children in insertion order), each identity
is invoked as often as it occurs in the tree (once, for an acyclic tree
of distinct nodes), the order is independent of the record and reference
table, and each node's state receives exactly one application of its own
update logic. -/
theorem processAlignment_fixed_preorder (al al' : α) (ref ref' : ρ)
    (t : StatCollector σ α ρ β) :
    (processVisits al ref t).map Prod.fst = preorderIds t ∧
    (∀ n, ((processVisits al ref t).map Prod.fst).count n = countNodes n t) ∧
    (processVisits al ref t).map Prod.fst =
      (processVisits al' ref' t).map Prod.fst ∧
    preorderSts (processAlignment al ref t) = preorderUpdated al ref t := by
  refine ⟨processVisits_map_fst al ref t, ?_, ?_,
    preorderSts_processAlignment al ref t⟩
  · intro n
    rw [processVisits_map_fst]
    exact count_preorderIds n t
  · rw [processVisits_map_fst, processVisits_map_fst]

/-- C7: during `processAlignment` every `processAlignmentImpl`
invocation — at this node and throughout the subtree — receives exactly
the record and reference table that were passed to the root call,
unchanged; the traversal touches nothing but the per-node states. -/
theorem processAlignment_frame (al : α) (ref : ρ)
    (t : StatCollector σ α ρ β) :
    (processVisits al ref t).map Prod.snd =
      List.replicate (sizeT t) (al, ref) := by
  induction t using rec_aux with
  | h i st upd emit cs ih =>
      rw [processVisits_mk, sizeT_mk, List.map_cons, List.map_flatten,
        List.map_map, Nat.add_comm 1, List.replicate_succ]
      congr 1
      have aux : ∀ cs' : List (StatCollector σ α ρ β),
          (∀ c ∈ cs', (processVisits al ref c).map Prod.snd
            = List.replicate (sizeT c) (al, ref)) →
          (cs'.map (List.map Prod.snd ∘ processVisits al ref)).flatten
            = List.replicate ((cs'.map sizeT).sum) (al, ref) := by
        intro cs'
        induction cs' with
        | nil => intro _; simp
        | cons c cs' ihl =>
            intro hmem
            simp only [List.map_cons, List.flatten_cons, List.sum_cons,
              Function.comp_apply]
            rw [hmem c (List.mem_cons_self c cs'),
              ihl (fun d hd => hmem d (List.mem_cons_of_mem c hd)),
              List.append_replicate_replicate]
      exact aux cs ih

theorem appendJson_eq_fold (emptyB : β) (t : StatCollector σ α ρ β) :
    ∀ b : Option β, appendJson emptyB t b
      = (preorderEmits t).foldl (fun acc f => f acc) (b.getD emptyB) := by
  induction t using rec_aux with
  | h i st upd emit cs ih =>
      intro b
      rw [appendJson_mk, preorderEmits_mk, List.foldl_cons]
      have aux : ∀ cs' : List (StatCollector σ α ρ β),
          (∀ c ∈ cs', ∀ b' : Option β, appendJson emptyB c b'
            = (preorderEmits c).foldl (fun acc f => f acc) (b'.getD emptyB)) →
          ∀ x : β, cs'.foldl (fun acc c => appendJson emptyB c (some acc)) x
            = ((cs'.map preorderEmits).flatten).foldl (fun acc f => f acc) x := by
        intro cs'
        induction cs' with
        | nil => intro _ x; rfl
        | cons c cs' ihl =>
            intro hmem x
            simp only [List.foldl_cons, List.map_cons, List.flatten_cons,
              List.foldl_append]
            rw [hmem c (List.mem_cons_self c cs') (some x)]
            simp only [Option.getD_some]
            exact ihl (fun d hd => hmem d (List.mem_cons_of_mem c hd)) _
      exact aux cs ih _

theorem preorderEmits_length (t : StatCollector σ α ρ β) :
    (preorderEmits t).length = sizeT t := by
  induction t using rec_aux with
  | h i st upd emit cs ih =>
      rw [preorderEmits_mk, sizeT_mk]
      simp only [List.length_cons, List.length_flatten, List.map_map]
      rw [show List.map (List.length ∘ preorderEmits) cs
            = List.map sizeT cs from
          List.map_congr_left fun c hc => ih c hc]
      exact Nat.add_comm _ _

/-- C2: `appendJson` folds the pluggable emissions of this node and of
all descendants, in pre-order (own emission first, then the children in
child order), over one single builder: the builder passed in when one is
supplied, a fresh empty one otherwise; the result is that accumulated
builder, and every node of the subtree — grandchildren included —
contributes exactly one emission to it. -/
theorem appendJson_accumulates (emptyB : β) (t : StatCollector σ α ρ β)
    (b : Option β) :
    appendJson emptyB t b
      = (preorderEmits t).foldl (fun acc f => f acc) (b.getD emptyB) ∧
    appendJson emptyB t none
      = (preorderEmits t).foldl (fun acc f => f acc) emptyB ∧
    (preorderEmits t).length = sizeT t :=
  ⟨appendJson_eq_fold emptyB t b, appendJson_eq_fold emptyB t none,
   preorderEmits_length t⟩

/-- C5: with no ingestion between them, two argument-less `appendJson`
calls on the same root produce two independently usable builders with
identical content (report assembly mutates no collector state in the
model: `appendJsonImpl` only reads the per-node state). -/
theorem buildReport_idempotent (emptyB : β) (t : StatCollector σ α ρ β) :
    (buildReportTwice emptyB t).1 = (buildReportTwice emptyB t).2 := rfl

theorem processAlignment_countTree (al ref n : Nat) :
    processAlignment al ref (countTree n) = countTree (n + 1) := by
  simp [countTree, leafAt, processAlignment_mk]

theorem ingestAll_countTree (recs : List (Nat × Nat)) (n : Nat) :
    ingestAll recs (countTree n) = countTree (n + recs.length) := by
  induction recs generalizing n with
  | nil => simp [ingestAll]
  | cons r recs ih =>
      have step : ingestAll (r :: recs) (countTree n)
          = ingestAll recs (processAlignment r.1 r.2 (countTree n)) := rfl
      rw [step, processAlignment_countTree, ih]
      congr 1
      simp only [List.length_cons]
      omega

theorem appendJson_countTree (n : Nat) :
    appendJson [] (countTree n) none = [(0, n), (1, n), (2, n), (3, n)] := by
  simp [countTree, leafAt, appendJson_mk]

/-- C9: after ingesting `N` records through the root's
`processAlignment`, the report produced by the root's `appendJson` holds
`count = N` for the root and for each of the three leaf children. -/
theorem count_collector_report (recs : List (Nat × Nat)) :
    appendJson [] (ingestAll recs countRoot) none =
      [(0, recs.length), (1, recs.length), (2, recs.length),
       (3, recs.length)] := by
  simp only [countRoot]
  rw [ingestAll_countTree, Nat.zero_add, appendJson_countTree]

/-- Induction principle for fallible collector trees. -/
theorem recE_aux {motive : StatCollectorE σ α ρ ε → Prop}
    (h : ∀ i st updE cs, (∀ c ∈ cs, motive c) →
      motive (.mk i st updE cs)) :
    ∀ t, motive t
  | .mk i st updE cs =>
      h i st updE cs (fun c hc => recE_aux h c)
decreasing_by
  simp only [StatCollectorE.mk.sizeOf_spec]
  have := List.sizeOf_lt_of_mem hc
  omega

theorem take_one_cons {γ : Type} (x : γ) (l : List γ) :
    (x :: l).take 1 = [x] := by
  simp

theorem visitsE_spec (al : α) (ref : ρ) :
    ∀ t : StatCollectorE σ α ρ ε,
      ((visitsE al ref t).2 = none →
        (visitsE al ref t).1 = preorderIdsE t ∧
        ∃ t2, processAlignmentE al ref t = .ok t2) ∧
      (∀ e, (visitsE al ref t).2 = some e →
        processAlignmentE al ref t = .error e ∧
        ∃ k, (visitsE al ref t).1 = (preorderIdsE t).take k) := by
  intro t
  induction t using recE_aux with
  | h i st updE cs ih =>
      have listSpec : ((visitsEList al ref cs).2 = none →
          (visitsEList al ref cs).1 = preorderIdsEList cs ∧
          ∃ cs2, processChildrenE al ref cs = .ok cs2) ∧
          (∀ e, (visitsEList al ref cs).2 = some e →
            processChildrenE al ref cs = .error e ∧
            ∃ k, (visitsEList al ref cs).1 =
              (preorderIdsEList cs).take k) := by
        clear i st updE
        induction cs with
        | nil =>
            constructor
            · intro _
              exact ⟨by simp [visitsEList, preorderIdsEList], ⟨[], by simp [processChildrenE]⟩⟩
            · intro e he
              simp [visitsEList] at he
        | cons c cs ihl =>
            have hc := ih c (List.mem_cons_self c cs)
            have ihl' := ihl (fun d hd => ih d (List.mem_cons_of_mem c hd))
            constructor
            · intro hnone
              rcases hr : visitsE al ref c with ⟨ids, o⟩
              cases o with
              | some e0 =>
                  exfalso
                  rw [show visitsEList al ref (c :: cs)
                      = (ids, some e0) by rw [visitsEList, hr]] at hnone
                  simp at hnone
              | none =>
                  have hv : visitsEList al ref (c :: cs)
                      = (ids ++ (visitsEList al ref cs).1,
                         (visitsEList al ref cs).2) := by
                    rw [visitsEList, hr]
                  rw [hv] at hnone ⊢
                  simp only at hnone
                  obtain ⟨hids, t2, ht2⟩ := hc.1 (by rw [hr])
                  obtain ⟨hids2, cs2, hcs2⟩ := ihl'.1 hnone
                  refine ⟨?_, ⟨t2 :: cs2, ?_⟩⟩
                  · simp only [preorderIdsEList]
                    rw [show ids = preorderIdsE c from by
                        simpa [hr] using hids, hids2]
                  · rw [processChildrenE, ht2, hcs2]
            · intro e he
              rcases hr : visitsE al ref c with ⟨ids, o⟩
              cases o with
              | some e0 =>
                  have hv : visitsEList al ref (c :: cs) = (ids, some e0) := by
                    rw [visitsEList, hr]
                  rw [hv] at he ⊢
                  simp only at he
                  obtain rfl : e0 = e := by injection he
                  obtain ⟨herr, k, hk⟩ := hc.2 e0 (by rw [hr])
                  have hids : ids = (preorderIdsE c).take k := by
                    simpa [hr] using hk
                  refine ⟨?_, ⟨min k (preorderIdsE c).length, ?_⟩⟩
                  · rw [processChildrenE, herr]
                  · simp only [preorderIdsEList]
                    rw [List.take_append_of_le_length
                        (Nat.min_le_right _ _), hids]
                    rw [List.take_eq_take]
                    omega
              | none =>
                  have hv : visitsEList al ref (c :: cs)
                      = (ids ++ (visitsEList al ref cs).1,
                         (visitsEList al ref cs).2) := by
                    rw [visitsEList, hr]
                  rw [hv] at he ⊢
                  simp only at he
                  obtain ⟨hids, t2, ht2⟩ := hc.1 (by rw [hr])
                  obtain ⟨herr2, k, hk2⟩ := ihl'.2 e he
                  have hids' : ids = preorderIdsE c := by
                    simpa [hr] using hids
                  refine ⟨?_, ⟨(preorderIdsE c).length + k, ?_⟩⟩
                  · rw [processChildrenE, ht2, herr2]
                  · simp only [preorderIdsEList]
                    rw [List.take_append, hids', hk2]
      constructor
      · intro hnone
        rcases hu : updE st al ref with e0 | st2
        · exfalso
          rw [show visitsE al ref (.mk i st updE cs)
              = ([i], some e0) by rw [visitsE, hu]] at hnone
          simp at hnone
        · have hv : visitsE al ref (.mk i st updE cs)
              = (i :: (visitsEList al ref cs).1,
                 (visitsEList al ref cs).2) := by
            rw [visitsE, hu]
          rw [hv] at hnone ⊢
          simp only at hnone
          obtain ⟨hids, cs2, hcs2⟩ := listSpec.1 hnone
          refine ⟨?_, ⟨.mk i st2 updE cs2, ?_⟩⟩
          · rw [preorderIdsE, hids]
          · rw [processAlignmentE, hu, hcs2]
      · intro e he
        rcases hu : updE st al ref with e0 | st2
        · have hv : visitsE al ref (.mk i st updE cs) = ([i], some e0) := by
            rw [visitsE, hu]
          rw [hv] at he ⊢
          simp only at he
          obtain rfl : e0 = e := by injection he
          refine ⟨?_, ⟨1, ?_⟩⟩
          · rw [processAlignmentE, hu]
          · rw [preorderIdsE, take_one_cons]
        · have hv : visitsE al ref (.mk i st updE cs)
              = (i :: (visitsEList al ref cs).1,
                 (visitsEList al ref cs).2) := by
            rw [visitsE, hu]
          rw [hv] at he ⊢
          simp only at he
          obtain ⟨herr, k, hk⟩ := listSpec.2 e he
          refine ⟨?_, ⟨k + 1, ?_⟩⟩
          · rw [processAlignmentE, hu, herr]
          · rw [preorderIdsE, List.take_succ_cons, hk]

/-- C8: a failure raised by a pluggable statistic implementation during
a traversal propagates unmodified out of the root call (the tree layer
neither inspects nor suppresses it), and the nodes whose logic actually
ran form an initial segment of the canonical pre-order traversal: every
node after the failure point — unvisited siblings and their subtrees —
is skipped for that record. -/
theorem failure_propagates (al : α) (ref : ρ) (t : StatCollectorE σ α ρ ε)
    (e : ε) (h : (visitsE al ref t).2 = some e) :
    processAlignmentE al ref t = Except.error e ∧
    ∃ k, (visitsE al ref t).1 = (preorderIdsE t).take k :=
  (visitsE_spec al ref t).2 e h

theorem failure_propagates_witness :
    processAlignmentE 0 0 failTree = Except.error 7 ∧
    ∃ k, (visitsE 0 0 failTree).1 = (preorderIdsE failTree).take k :=
  failure_propagates 0 0 failTree 7 (by simp [failTree, visitsE, visitsEList])

theorem appendJsonH_some (emptyB : β) (i : Nat) (st : σ)
    (upd : σ → α → ρ → σ) (emit : σ → β → β)
    (cs : List (StatCollector σ α ρ β)) (bid : Nat) (H : BuilderHeap β) :
    appendJsonH emptyB (.mk i st upd emit cs) (some bid) H =
      (bid, cs.foldl (fun hh c => (appendJsonH emptyB c (some bid) hh).2)
        (heapApply bid (emit st) H)) := by
  simp only [appendJsonH]
  rw [List.foldl_attach cs
    (fun hh c => (appendJsonH emptyB c (some bid) hh).2)]

theorem appendJsonH_none (emptyB : β) (i : Nat) (st : σ)
    (upd : σ → α → ρ → σ) (emit : σ → β → β)
    (cs : List (StatCollector σ α ρ β)) (H : BuilderHeap β) :
    appendJsonH emptyB (.mk i st upd emit cs) none H =
      (H.next,
       cs.foldl (fun hh c => (appendJsonH emptyB c (some H.next) hh).2)
        (heapApply H.next (emit st) (heapAlloc emptyB H).2)) := by
  simp only [appendJsonH, heapAlloc]
  rw [List.foldl_attach cs
    (fun hh c => (appendJsonH emptyB c (some H.next) hh).2)]

theorem appendJsonH_frame (emptyB : β) (bid : Nat) :
    ∀ t : StatCollector σ α ρ β, ∀ H : BuilderHeap β,
      (appendJsonH emptyB t (some bid) H).1 = bid ∧
      (appendJsonH emptyB t (some bid) H).2.next = H.next ∧
      ∀ j, j ≠ bid →
        (appendJsonH emptyB t (some bid) H).2.store j = H.store j := by
  intro t
  induction t using rec_aux with
  | h i st upd emit cs ih =>
      intro H
      rw [appendJsonH_some]
      have foldFrame : ∀ cs' : List (StatCollector σ α ρ β),
          (∀ c ∈ cs', ∀ H' : BuilderHeap β,
            (appendJsonH emptyB c (some bid) H').1 = bid ∧
            (appendJsonH emptyB c (some bid) H').2.next = H'.next ∧
            ∀ j, j ≠ bid →
              (appendJsonH emptyB c (some bid) H').2.store j = H'.store j) →
          ∀ H0 : BuilderHeap β,
            (cs'.foldl (fun hh c => (appendJsonH emptyB c (some bid) hh).2)
              H0).next = H0.next ∧
            ∀ j, j ≠ bid →
              (cs'.foldl (fun hh c => (appendJsonH emptyB c (some bid) hh).2)
                H0).store j = H0.store j := by
        intro cs'
        induction cs' with
        | nil => intro _ H0; exact ⟨rfl, fun j _ => rfl⟩
        | cons c cs' ihl =>
            intro hmem H0
            simp only [List.foldl_cons]
            obtain ⟨hnext, hstore⟩ :=
              ihl (fun d hd => hmem d (List.mem_cons_of_mem c hd))
                ((appendJsonH emptyB c (some bid) H0).2)
            obtain ⟨_, hnext0, hstore0⟩ :=
              hmem c (List.mem_cons_self c cs') H0
            refine ⟨hnext.trans hnext0, fun j hj => ?_⟩
            rw [hstore j hj, hstore0 j hj]
      obtain ⟨hnext, hstore⟩ := foldFrame cs ih (heapApply bid (emit st) H)
      refine ⟨rfl, hnext.trans rfl, fun j hj => ?_⟩
      rw [hstore j hj]
      simp [heapApply, hj]

/-- C10: with a builder argument, `appendJson` returns precisely the
builder object it was given — not a copy and not a fresh one: the
allocation counter is unchanged and every builder other than the given
one is untouched.  A new builder is created only in the argument-less
case, where the returned object is exactly the one freshly allocated and
exactly one allocation happens. -/
theorem appendJson_same_builder (emptyB : β) (t : StatCollector σ α ρ β)
    (H : BuilderHeap β) (bid j : Nat) (hj : j ≠ bid) :
    (appendJsonH emptyB t (some bid) H).1 = bid ∧
    (appendJsonH emptyB t (some bid) H).2.next = H.next ∧
    (appendJsonH emptyB t (some bid) H).2.store j = H.store j ∧
    (appendJsonH emptyB t none H).1 = H.next ∧
    (appendJsonH emptyB t none H).2.next = H.next + 1 := by
  obtain ⟨h1, h2, h3⟩ := appendJsonH_frame emptyB bid t H
  refine ⟨h1, h2, h3 j hj, ?_, ?_⟩
  · cases t with
    | mk i st upd emit cs =>
        rw [appendJsonH_none]
  · cases t with
    | mk i st upd emit cs =>
        rw [appendJsonH_none]
        have foldNext : ∀ cs' : List (StatCollector σ α ρ β),
            ∀ H0 : BuilderHeap β,
            (cs'.foldl
              (fun hh c => (appendJsonH emptyB c (some H.next) hh).2)
              H0).next = H0.next := by
          intro cs'
          induction cs' with
          | nil => intro H0; rfl
          | cons c cs' ihl =>
              intro H0
              simp only [List.foldl_cons]
              rw [ihl]
              exact (appendJsonH_frame emptyB H.next c H0).2.1
        simp only
        rw [foldNext]
        simp [heapApply, heapAlloc]

theorem appendJson_same_builder_witness :
    (appendJsonH [] (leafAt 4 0) (some 9) ⟨5, fun _ => []⟩).1 = 9 ∧
    (appendJsonH [] (leafAt 4 0) (some 9) ⟨5, fun _ => []⟩).2.next = 5 ∧
    (appendJsonH [] (leafAt 4 0) (some 9)
      ⟨5, fun _ => []⟩).2.store 3 = ([] : List (Nat × Nat)) ∧
    (appendJsonH [] (leafAt 4 0) none ⟨5, fun _ => []⟩).1 = 5 ∧
    (appendJsonH [] (leafAt 4 0) none ⟨5, fun _ => []⟩).2.next = 5 + 1 :=
  appendJson_same_builder [] (leafAt 4 0) ⟨5, fun _ => []⟩ 9 3 (by decide)

end BamstatsAlive

